import Mathlib

/-!
Verification of the chapter partitioner and line classifier of the
Guiyou Hongloumeng epub generator (`build/generate_epub.py`).

Text is embedded as `List Char` (Python strings are sequences of Unicode
scalars, as is `List Char`).  The regular expressions of the source are
unrolled into deterministic scanners: every pattern used by the program
(`第\s*[一二三四五六七八九十百]+\s*回`, its variants, and `【.*?】`) is
backtracking-free on its character classes, so leftmost greedy matching
coincides with the explicit maximal-munch scanners written here.
-/

namespace Hlm

/-- Python whitespace (`str.strip`, `str.isspace`, and `\s` of the `re`
module in unicode mode): ASCII whitespace plus the Unicode space
characters, in particular U+3000 (ideographic space) used by the corpus. -/
def isPySpace (c : Char) : Bool :=
  c = ' ' || c = '\t' || c = '\n' || c = '\r' || c = '\x0b' || c = '\x0c' ||
  c = '\x1c' || c = '\x1d' || c = '\x1e' || c = '\x1f' || c = '\x85' || c = '\xa0' ||
  c = ' ' || (' ' ≤ c && c ≤ ' ') || c = ' ' || c = ' ' ||
  c = ' ' || c = ' ' || c = '　'

/-- The numeral character class `[一二三四五六七八九十百]`. -/
def isChapNum (c : Char) : Bool :=
  c = '一' || c = '二' || c = '三' || c = '四' || c = '五' || c = '六' ||
  c = '七' || c = '八' || c = '九' || c = '十' || c = '百'

/-- Maximal whitespace run: `(l.takeWhile isPySpace, l.dropWhile isPySpace)`. -/
def takeWsP (l : List Char) : List Char × List Char :=
  (l.takeWhile isPySpace, l.dropWhile isPySpace)

/-- Maximal numeral run. -/
def takeNumsP (l : List Char) : List Char × List Char :=
  (l.takeWhile isChapNum, l.dropWhile isChapNum)

/-- Python `str.strip()`: remove leading and trailing whitespace. -/
def stripBoth (l : List Char) : List Char :=
  ((l.dropWhile isPySpace).reverse.dropWhile isPySpace).reverse

/-- Auxiliary for `str.split('\n')`: first line and remaining lines. -/
def splitNlA : List Char → List Char × List (List Char)
  | [] => ([], [])
  | c :: rest =>
    let p := splitNlA rest
    if c = '\n' then ([], p.1 :: p.2) else (c :: p.1, p.2)

/-- Python `text.split('\n')` (never empty; `""` splits to `[""]`). -/
def splitNl (l : List Char) : List (List Char) :=
  ((splitNlA l).1) :: (splitNlA l).2

/-- Python `'\n'.join(lines)`. -/
def joinNl : List (List Char) → List Char
  | [] => []
  | [x] => x
  | x :: xs => x ++ '\n' :: joinNl xs

/-- Python `line.startswith(pat)`. -/
def startsWithL (pat l : List Char) : Bool :=
  decide (l.take pat.length = pat)

/-- Python `line.endswith(pat)`. -/
def endsWithL (pat l : List Char) : Bool :=
  decide (l.length ≥ pat.length ∧ l.drop (l.length - pat.length) = pat)

/-- Python `s.replace(' ', '')` — removes ASCII spaces only. -/
def removeSpaces (l : List Char) : List Char :=
  l.filter (fun c => c != ' ')

/-- The front-matter marker literal `扉页题诗：` of `parse_full_text`. -/
def markerL : List Char := "扉页题诗：".toList

/-- Python `content.split(marker, 1)`: split at the first occurrence of
`pat`; `none` when `pat` does not occur (the program tests membership
with `marker in content` first, which agrees with `none`). -/
def splitOnce (pat : List Char) : List Char → Option (List Char × List Char)
  | [] => none
  | c :: rest =>
    if pat.isPrefixOf (c :: rest) then some ([], (c :: rest).drop pat.length)
    else
      match splitOnce pat rest with
      | some (a, b) => some (c :: a, b)
      | none => none

/-- Number of occurrences of `pat` in a string (one per start offset);
used to state "contains the marker exactly once". -/
def countOcc (pat : List Char) : List Char → Nat
  | [] => 0
  | c :: rest => (if pat.isPrefixOf (c :: rest) then 1 else 0) + countOcc pat rest

/-- The fallback pattern `第\s*一\s*回` (note: the literal numeral `一`
only), matched at a given position. -/
def chapOneCore (l : List Char) : Bool :=
  match l with
  | [] => false
  | c0 :: r1 =>
    if c0 = '第' then
      match r1.dropWhile isPySpace with
      | [] => false
      | c1 :: r2 =>
        if c1 = '一' then
          match r2.dropWhile isPySpace with
          | [] => false
          | c2 :: _ => c2 = '回'
        else false
    else false

/-- `re.search(r'(^|\n)第\s*一\s*回', content).start()`: offset of the first
match; `first` records whether the head of `l` is at absolute offset 0
(where the `^` alternative can apply). -/
def searchChapOneAux : Bool → List Char → Option Nat
  | _, [] => none
  | first, c :: rest =>
    if first && chapOneCore (c :: rest) then some 0
    else if c = '\n' && chapOneCore rest then some 0
    else (searchChapOneAux false rest).map (fun q => q + 1)

def searchChapOne (l : List Char) : Option Nat :=
  searchChapOneAux true l

/-- The shared core `第\s*[一二三四五六七八九十百]+\s*回` of the chapter
patterns: returns the two whitespace runs, the numeral run, and the rest
after `回`.  The character classes are pairwise disjoint and disjoint
from the anchors, so greedy matching is deterministic. -/
def chapNumCore (l : List Char) : Option (List Char × List Char × List Char × List Char) :=
  match l with
  | [] => none
  | c0 :: r1 =>
    if c0 = '第' then
      let (a, r2) := takeWsP r1
      let (b, r3) := takeNumsP r2
      if b = [] then none
      else
        let (c, r4) := takeWsP r3
        match r4 with
        | [] => none
        | c1 :: r5 => if c1 = '回' then some (a, b, c, r5) else none
    else none

/-- Length consumed by the non-greedy tail `.*?(\n|$)`: up to and
including the first newline, or the whole rest when there is none. -/
def dotStarNl (r : List Char) : Nat :=
  let t := r.takeWhile (fun c => c != '\n')
  if t.length = r.length then r.length else t.length + 1

/-- Length consumed by `第\s*[…]+\s*回\s+.*?(\n|$)` matched at the start
of `l` (groups 2 and 3 of `chap_header_pattern`), or `none`. -/
def headerCore (l : List Char) : Option Nat :=
  match chapNumCore l with
  | none => none
  | some (a, b, c, r5) =>
    let (d, r6) := takeWsP r5
    if d = [] then none
    else some (1 + a.length + b.length + c.length + 1 + d.length + dotStarNl r6)

/-- `re.match(r'(第\s*[…]+\s*回)\s+(.*)', header)`: group 1 (the raw
numeral token, whitespace included) and group 2 (the title text; `.`
does not cross a newline). -/
def headerMatch (l : List Char) : Option (List Char × List Char) :=
  match chapNumCore l with
  | none => none
  | some (a, b, c, r5) =>
    let (d, r6) := takeWsP r5
    if d = [] then none
    else some ('第' :: (a ++ b ++ c ++ ['回']), r6.takeWhile (fun ch => ch != '\n'))

/-- One step of `chap_header_pattern.finditer`: the first match in `l`,
as `(offset, length of group 1, length of groups 2+3)`.  Group 1 is
`(^|\n)`; `^` applies only when `first` holds (no `re.M`). -/
def findMatch : Bool → List Char → Option (Nat × Nat × Nat)
  | _, [] => none
  | first, c :: rest =>
    match (if first then headerCore (c :: rest) else none) with
    | some n => some (0, 0, n)
    | none =>
      match (if c = '\n' then headerCore rest else none) with
      | some n => some (0, 1, n)
      | none => (findMatch false rest).map (fun m => (m.1 + 1, m.2.1, m.2.2))

/-- All matches of `chap_header_pattern.finditer`, non-overlapping, each
resuming after the previous match's end.  Every match consumes at least
four characters, so `l.length + 1` fuel is never exhausted. -/
def findAllAux : Nat → Bool → List Char → List (Nat × Nat × Nat)
  | 0, _, _ => []
  | fuel + 1, first, l =>
    match findMatch first l with
    | none => []
    | some (q, g, n) =>
      (q, g, n) ::
        (findAllAux fuel false (l.drop (q + g + n))).map
          (fun m => (q + g + n + m.1, m.2.1, m.2.2))

def findAll (l : List Char) : List (Nat × Nat × Nat) :=
  findAllAux (l.length + 1) true l

/-- A table-of-contents entry produced from the TOC region. -/
structure TocEntry where
  numStr : List Char
  title : List Char
deriving DecidableEq, Repr

/-- A record of the parsed body: front-matter (`intro`) or a chapter. -/
inductive BodyItem where
  | intro (title content : List Char)
  | chapter (numStr title content : List Char)
deriving DecidableEq, Repr

/-- Does a suffix match `\s*(\d+)?$`? (whitespace run then an optional
digit run reaching the end). -/
def tocSuffixOk (t : List Char) : Bool :=
  (t.dropWhile isPySpace).all (fun c => c.isDigit)

/-- Length of the non-greedy group `(.*?)` in
`(第\s*[…]+\s*回)\s+(.*?)\s*(\d+)?$`: the least split whose remainder
matches `\s*(\d+)?$`.  Total, since the empty remainder always matches. -/
def tocTitleLen (r : List Char) : Nat :=
  if tocSuffixOk r then 0
  else
    match r with
    | [] => 0
    | _ :: t => 1 + tocTitleLen t

/-- `toc_pattern.match(line)`: group 1 (raw numeral token) and group 2
(title). -/
def tocLineMatch (l : List Char) : Option (List Char × List Char) :=
  match chapNumCore l with
  | none => none
  | some (a, b, c, r5) =>
    let (d, r6) := takeWsP r5
    if d = [] then none
    else some ('第' :: (a ++ b ++ c ++ ['回']), r6.take (tocTitleLen r6))

/-- The TOC loop of `parse_full_text`: per line, strip, skip empty lines,
and collect `(group1 without ASCII spaces, group2 stripped)` for lines
matching `toc_pattern`; non-matching lines are silently skipped. -/
def parseToc (t : List Char) : List TocEntry :=
  (splitNl t).filterMap fun line =>
    let line := stripBoth line
    if line = [] then none
    else
      match tocLineMatch line with
      | some (raw, g2) => some ⟨removeSpaces raw, stripBoth g2⟩
      | none => none

def fullLabel : List Char := "全文".toList

def pageLabel : List Char := "扉页".toList

/-- Chapter record from one chunk (lines 146-175 of the source): first
line is the header; on `header_match` the numeral token drops its ASCII
spaces and the title is group 2 stripped, otherwise the first four
characters serve as numeral token and the whole header as title. -/
def mkChapter (chunk : List Char) : BodyItem :=
  let ls := splitNl chunk
  let header := stripBoth (ls.headD [])
  let content := stripBoth (joinNl ls.tail)
  match headerMatch header with
  | some (raw, g2) => BodyItem.chapter (removeSpaces raw) (stripBoth g2) content
  | none => BodyItem.chapter (header.take 4) header content

/-- Chunking: each chapter runs from its match start to the next match
start (or end of text), stripped. -/
def buildChapters (body : List Char) : List (Nat × Nat × Nat) → List BodyItem
  | [] => []
  | m :: rest =>
    let e :=
      match rest with
      | [] => body.length
      | m' :: _ => m'.1
    mkChapter (stripBoth ((body.drop m.1).take (e - m.1))) :: buildChapters body rest

/-- The body half of `parse_full_text`: with no matches, a single intro
record titled `全文` holding the whole body text; otherwise an optional
intro record titled `扉页` for the text before the first match, then one
chapter per match. -/
def parseBody (body : List Char) : List BodyItem :=
  match findAll body with
  | [] => [BodyItem.intro fullLabel body]
  | m :: rest =>
    let introText := stripBoth (body.take m.1)
    let chaps := buildChapters body (m :: rest)
    if introText = [] then chaps else BodyItem.intro pageLabel introText :: chaps

/-- The TOC/body split of `parse_full_text`: split at the first marker
occurrence keeping the marker in the body, else fall back to the first
line-start occurrence of `第\s*一\s*回`, else fail. -/
def parseSplit (content : List Char) : Option (List Char × List Char) :=
  match splitOnce markerL content with
  | some (pre, after) => some (pre, markerL ++ after)
  | none =>
    match searchChapOne content with
    | some q => some (content.take q, content.drop q)
    | none => none

/-- `parse_full_text` minus the file I/O: the TOC entries and the parsed
body records; `([], [])` when no split point is found (the error path
printing "Could not split TOC and Body"). -/
def parseFullText (content : List Char) : List TocEntry × List BodyItem :=
  match parseSplit content with
  | some (toc, body) => (parseToc toc, parseBody body)
  | none => ([], [])

/-- Single-character replacement, the effect of Python
`text.replace(c, r)` for a one-character pattern. -/
def chReplace (c : Char) (r : List Char) (l : List Char) : List Char :=
  l.flatMap fun x => if x = c then r else [x]

def ampRep : List Char := "&amp;".toList
def ltRep : List Char := "&lt;".toList
def gtRep : List Char := "&gt;".toList

/-- `text.replace('&','&amp;').replace('<','&lt;').replace('>','&gt;')`. -/
def escapeHtml (l : List Char) : List Char :=
  chReplace '>' gtRep (chReplace '<' ltRep (chReplace '&' ampRep l))

/-- Scan for the closing glyph of `【.*?】`: the text before the first
`】` and the text after it, failing at a newline (`.` does not match
`\n`) or at the end. -/
def splitAtClose : List Char → Option (List Char × List Char)
  | [] => none
  | c :: rest =>
    if c = '】' then some ([], rest)
    else if c = '\n' then none
    else
      match splitAtClose rest with
      | some (a, b) => some (c :: a, b)
      | none => none

def spanOpen : List Char := "<span class=\"comment\">".toList

def spanClose : List Char := "</span>".toList

/-- `re.sub(r'(【.*?】)', r'<span class="comment">\1</span>', text)`,
with fuel (each step consumes at least one character, so `length + 1`
fuel always suffices). -/
def wrapAux : Nat → List Char → List Char
  | 0, _ => []
  | _, [] => []
  | fuel + 1, c :: rest =>
    if c = '【' then
      match splitAtClose rest with
      | some (inner, after) =>
        spanOpen ++ '【' :: (inner ++ '】' :: (spanClose ++ wrapAux fuel after))
      | none => c :: wrapAux fuel rest
    else c :: wrapAux fuel rest

def wrapComments (l : List Char) : List Char :=
  wrapAux (l.length + 1) l

/-- The kind of a classified line. -/
inductive Kind where
  | poemIntro
  | poemLine
  | paragraph
deriving DecidableEq, Repr

def shiYueTok : List Char := "诗曰".toList
def yunTok : List Char := "云：".toList
def daoShiTok : List Char := "道是：".toList
def yueTok : List Char := "曰：".toList

/-- `line.startswith('诗曰') or line.endswith('云：') or
line.endswith('道是：') or line.endswith('曰：')`. -/
def poemIntroCond (l : List Char) : Bool :=
  startsWithL shiYueTok l || endsWithL yunTok l || endsWithL daoShiTok l ||
    endsWithL yueTok l

/-- `line.endswith('。') or line.endswith('，') or line.endswith('？') or
line.endswith('！')`. -/
def poemPunctCond (l : List Char) : Bool :=
  endsWithL "。".toList l || endsWithL "，".toList l || endsWithL "？".toList l ||
    endsWithL "！".toList l

/-- The `if/elif/else` of `process_text` (lines 204-212). -/
def classifyLine (l : List Char) : Kind :=
  if poemIntroCond l then Kind.poemIntro
  else if decide (l.length < 40) && poemPunctCond l then Kind.poemLine
  else Kind.paragraph

/-- `process_text` as the classifier of the spec: escape, wrap bracketed
spans, split into lines, drop empty (stripped) lines, and classify each
surviving line.  The pair carries the kind and the line's final text. -/
def processText (text : List Char) : List (Kind × List Char) :=
  let t := wrapComments (escapeHtml text)
  (splitNl t).filterMap fun line =>
    let line := stripBoth line
    if line = [] then none else some (classifyLine line, line)

/-- The ordinal assignment of `main` (lines 398-410): a running
`chapter_index` incremented at each chapter record, intro records
skipped. -/
def assignOrdinals : List BodyItem → Nat → List Nat
  | [], _ => []
  | BodyItem.intro _ _ :: rest, k => assignOrdinals rest k
  | BodyItem.chapter _ _ _ :: rest, k => (k + 1) :: assignOrdinals rest (k + 1)

/-- Number of chapter records. -/
def countChapters : List BodyItem → Nat
  | [] => 0
  | BodyItem.intro _ _ :: rest => countChapters rest
  | BodyItem.chapter _ _ _ :: rest => countChapters rest + 1

/-- "A line contains only whitespace" (`not line.strip()`). -/
def allWs (l : List Char) : Prop :=
  ∀ c ∈ l, isPySpace c = true

/-- "`第\s*一\s*回` occurs at offset `q` of `l` at a line start": either
at the very start (permitted only when `first`, i.e. offset 0 of the
whole string, matching `^` without `re.M`), or right after a newline
(the match offset `q` pointing at the `\n`, as `re` reports it). -/
def chapOneHit (first : Bool) (l : List Char) (q : Nat) : Prop :=
  (q = 0 ∧ first = true ∧ chapOneCore l = true) ∨
  (∃ t, l.drop q = '\n' :: t ∧ chapOneCore t = true)

/-- Scenario A input of the spec. -/
def scenarioA : List Char := "扉页题诗：前言文字\n第一回　开篇之题　　这是正文。".toList

/-- A marker-free input whose first line matches the general
chapter-opening pattern with the numeral `二`. -/
def c3input : List Char := "第二回　题目\n正文。".toList

/-- An input with no marker and no chapter-opening line at all. -/
def c4input : List Char := "没有章节的文字。".toList

/-- An input whose chapter header separates the glyphs with tabs. -/
def c5input : List Char := "扉页题诗：引子\n第\t一\t回 题目\n正文".toList

/-- An input whose first `【` meets its next `】` only after a newline,
with a second `【` in between. -/
def c10input : List Char := "【a\n【b】".toList

/-! ## Theorems -/

/-- Helper: `mkChapter` always yields a `chapter` record. -/
theorem countChapters_cons_mk (chunk : List Char) (rest : List BodyItem) :
    countChapters (mkChapter chunk :: rest) = countChapters rest + 1 := by
  simp only [mkChapter]
  split <;> simp [countChapters]

theorem countChapters_build (body : List Char) (ms : List (Nat × Nat × Nat)) :
    countChapters (buildChapters body ms) = ms.length := by
  induction ms with
  | nil => simp [buildChapters, countChapters]
  | cons m rest ih => simp [buildChapters, countChapters_cons_mk, ih]

theorem assignOrdinals_range (items : List BodyItem) (k : Nat) :
    assignOrdinals items k = List.range' (k + 1) (countChapters items) := by
  induction items generalizing k with
  | nil => simp [assignOrdinals, countChapters]
  | cons x rest ih =>
    cases x with
    | intro t c => simp [assignOrdinals, countChapters, ih]
    | chapter n t c => simp [assignOrdinals, countChapters, ih, List.range']

/-- C6: the chapter records produced by the partition carry ordinals
exactly `1..N` in document order, `N` being the number of detected
chapter boundaries; being the list `[1, …, N]`, they are unique and
strictly increasing, and so are the identifiers `chap_1..chap_N` and the
filenames derived from them one-for-one in `main`. -/
theorem c6_ordinals (body : List Char) :
    countChapters (parseBody body) = (findAll body).length ∧
    assignOrdinals (parseBody body) 0 = List.range' 1 (countChapters (parseBody body)) := by
  refine ⟨?_, assignOrdinals_range _ 0⟩
  unfold parseBody
  cases h : findAll body with
  | nil => simp [countChapters]
  | cons m rest =>
    simp only []
    split <;> simp [countChapters, countChapters_build]

/-- C1 counterexample: on the scenario A input the parse keeps the
marker inside the front-matter body (so it is `扉页题诗：前言文字`, not
`前言文字`), and the whole remainder of the single-line chapter becomes
the title, leaving the chapter body empty; so the claim's expected
records do not occur. -/
theorem c1_scenarioA_cx :
    (parseFullText scenarioA).2 =
      [BodyItem.intro pageLabel "扉页题诗：前言文字".toList,
       BodyItem.chapter "第一回".toList "开篇之题　　这是正文。".toList []] ∧
    BodyItem.intro pageLabel "前言文字".toList ∉ (parseFullText scenarioA).2 ∧
    BodyItem.chapter "第一回".toList "开篇之题".toList "这是正文。".toList ∉
      (parseFullText scenarioA).2 := by
  refine ⟨by decide, by decide, by decide⟩

/-- C1 amended: for the scenario A input, the parse produces a
front-matter record whose body is `扉页题诗：前言文字` (the marker is
kept in the body region) and one chapter record with numeral token
`第一回`, title `开篇之题　　这是正文。` (title and prose share the
header line, which is consumed whole) and empty body; the classifier
applied to that empty body yields no typed lines. -/
theorem c1_scenarioA_amended :
    parseFullText scenarioA =
      ([],
       [BodyItem.intro pageLabel "扉页题诗：前言文字".toList,
        BodyItem.chapter "第一回".toList "开篇之题　　这是正文。".toList []]) ∧
    processText [] = [] := by
  refine ⟨by decide, by decide⟩

/-- C9: on the bracketed-span line, the classifier's escape/wrap stage
wraps `【批注】` in the inline comment span, keeps both bracket glyphs
inside it, and leaves `贾雨村` and `风尘怀闺秀。` unchanged around it. -/
theorem c9_bracket_span :
    wrapComments (escapeHtml "贾雨村【批注】风尘怀闺秀。".toList) =
      "贾雨村".toList ++ spanOpen ++ "【批注】".toList ++ spanClose ++ "风尘怀闺秀。".toList ∧
    processText "贾雨村【批注】风尘怀闺秀。".toList =
      [(Kind.paragraph,
        "贾雨村".toList ++ spanOpen ++ "【批注】".toList ++ spanClose ++ "风尘怀闺秀。".toList)] := by
  refine ⟨by decide, by decide⟩

/-- C3 counterexample: `c3input` has no marker, and its first line
matches the general chapter-opening pattern (numeral `二`) at the very
start of the text, yet the parse returns the empty failure result
instead of treating the text from that point on as the body — the
fallback search is for the literal `第\s*一\s*回` only. -/
theorem c3_fallback_cx :
    splitOnce markerL c3input = none ∧
    (findMatch true c3input).isSome = true ∧
    headerCore c3input = some 7 ∧
    parseFullText c3input = ([], []) := by
  refine ⟨by decide, by decide, by decide, by decide⟩

/-- C4 counterexample: `c4input` contains no marker and matches no
chapter-opening pattern anywhere, and the parse returns `([], [])` —
no front-matter record containing the input is produced. -/
theorem c4_nochapters_cx :
    splitOnce markerL c4input = none ∧
    searchChapOne c4input = none ∧
    findAll c4input = [] ∧
    parseFullText c4input = ([], []) ∧
    c4input ≠ [] := by
  refine ⟨by decide, by decide, by decide, by decide, by decide⟩

/-- C5 counterexample: the header line `第\t一\t回 题目` matches the
numeral+title pattern, but the stored numeral token is `第\t一\t回`:
the normalization `replace(' ', '')` removes ASCII spaces only, so the
tabs (whitespace) survive in `numeral_text`. -/
theorem c5_numeral_ws_cx :
    (parseFullText c5input).2 =
      [BodyItem.intro pageLabel "扉页题诗：引子".toList,
       BodyItem.chapter "第\t一\t回".toList "题目".toList "正文".toList] ∧
    '\t' ∈ "第\t一\t回".toList ∧
    isPySpace '\t' = true := by
  refine ⟨by decide, by decide, by decide⟩

/-- C10 counterexample: in `【a\n【b】` the first `【` and the next `】`
are separated by a line break, yet the closing glyph does not pass
through unwrapped: it ends up inside a comment span (paired with the
second `【`), so the wrapping step does change the text. -/
theorem c10_multiline_bracket_cx :
    wrapComments c10input =
      "【a\n".toList ++ spanOpen ++ "【b】".toList ++ spanClose ∧
    wrapComments c10input ≠ c10input := by
  refine ⟨by decide, by decide⟩

/-- C8: for a surviving line that fails the poem-intro rule, the kind is
`poemLine` exactly when the length is below 40 and the line ends in one
of `。，？！`; otherwise the kind is `paragraph` — the `if/elif/else`
applies only the first matching rule. -/
theorem c8_poem_line_rule (l : List Char) (h : poemIntroCond l = false) :
    (classifyLine l = Kind.poemLine ↔ l.length < 40 ∧ poemPunctCond l = true) ∧
    (¬(l.length < 40 ∧ poemPunctCond l = true) → classifyLine l = Kind.paragraph) := by
  by_cases h40 : l.length < 40 <;> by_cases hp : poemPunctCond l = true <;>
    simp [classifyLine, h, h40, hp]

theorem c8_poem_line_rule_witness :
    poemIntroCond "满纸荒唐言。".toList = false ∧
    ((classifyLine "满纸荒唐言。".toList = Kind.poemLine ↔
        ("满纸荒唐言。".toList).length < 40 ∧ poemPunctCond "满纸荒唐言。".toList = true) ∧
      (¬(("满纸荒唐言。".toList).length < 40 ∧ poemPunctCond "满纸荒唐言。".toList = true) →
        classifyLine "满纸荒唐言。".toList = Kind.paragraph)) :=
  ⟨by decide, c8_poem_line_rule "满纸荒唐言。".toList (by decide)⟩

/-- Helper: a pattern is a (boolean) prefix of itself followed by
anything. -/
theorem isPrefixOf_append_self (p l : List Char) : p.isPrefixOf (p ++ l) = true := by
  induction p with
  | nil => simp [List.isPrefixOf]
  | cons c cs ih => simp [List.isPrefixOf, ih]

/-- Helper: a string of the shape `a ++ pat ++ b` contains at least one
occurrence of `pat`. -/
theorem countOcc_ge_one (pat a b : List Char) (hne : pat ≠ []) :
    1 ≤ countOcc pat (a ++ pat ++ b) := by
  induction a with
  | nil =>
    cases pat with
    | nil => exact absurd rfl hne
    | cons p ps =>
      have hpfx : (p :: ps).isPrefixOf (p :: (ps ++ b)) = true := by
        have h0 := isPrefixOf_append_self (p :: ps) b
        rwa [List.cons_append] at h0
      simp [countOcc, hpfx]
  | cons c cs ih =>
    simp only [countOcc, List.cons_append, List.append_eq, List.append_assoc] at ih ⊢
    omega

/-- Helper: one unfolding step of `splitOnce`. -/
theorem splitOnce_cons (pat : List Char) (c : Char) (rest : List Char) :
    splitOnce pat (c :: rest) =
      if pat.isPrefixOf (c :: rest) then some ([], (c :: rest).drop pat.length)
      else
        match splitOnce pat rest with
        | some (a, b) => some (c :: a, b)
        | none => none := by
  simp [splitOnce]

/-- Helper: one unfolding step of `countOcc`. -/
theorem countOcc_cons (pat : List Char) (c : Char) (rest : List Char) :
    countOcc pat (c :: rest) =
      (if pat.isPrefixOf (c :: rest) then 1 else 0) + countOcc pat rest := by
  simp [countOcc]

/-- Helper: when the marker occurs exactly once, `split(marker, 1)`
splits exactly at its offset. -/
theorem splitOnce_marker (pre suf : List Char)
    (h : countOcc markerL (pre ++ markerL ++ suf) = 1) :
    splitOnce markerL (pre ++ markerL ++ suf) = some (pre, suf) := by
  induction pre with
  | nil =>
    have e1 : markerL ++ suf = '扉' :: ("页题诗：".toList ++ suf) := rfl
    rw [List.nil_append, e1, splitOnce_cons, ← e1,
      if_pos (isPrefixOf_append_self markerL suf), List.drop_left]
  | cons c cs ih =>
    have hrest : 1 ≤ countOcc markerL (cs ++ markerL ++ suf) :=
      countOcc_ge_one markerL cs suf (by decide)
    rw [List.append_assoc, List.cons_append, ← List.append_assoc] at h ⊢
    rw [countOcc_cons] at h
    have hnp : markerL.isPrefixOf (c :: (cs ++ markerL ++ suf)) = false := by
      cases hb : markerL.isPrefixOf (c :: (cs ++ markerL ++ suf)) with
      | false => rfl
      | true => rw [hb, if_pos rfl] at h; omega
    rw [hnp] at h
    simp only [Bool.false_eq_true, if_false, Nat.zero_add] at h
    rw [splitOnce_cons, hnp]
    simp only [Bool.false_eq_true, if_false, ih h]

/-- C2: for any input containing the front-matter marker exactly once,
the parse splits at exactly that offset: the text strictly before the
marker becomes the TOC region (excluded from chapter scanning), and the
region handed to the chapter scanner is the text from the marker onward,
marker included. -/
theorem c2_marker_split (pre suf : List Char)
    (h : countOcc markerL (pre ++ markerL ++ suf) = 1) :
    parseSplit (pre ++ markerL ++ suf) = some (pre, markerL ++ suf) ∧
    parseFullText (pre ++ markerL ++ suf) =
      (parseToc pre, parseBody (markerL ++ suf)) := by
  have hs := splitOnce_marker pre suf h
  rw [List.append_assoc] at hs
  refine ⟨?_, ?_⟩
  · simp [parseSplit, hs]
  · simp [parseFullText, parseSplit, hs]

theorem c2_marker_split_witness :
    countOcc markerL ("目录".toList ++ markerL ++ "正文".toList) = 1 ∧
    (parseSplit ("目录".toList ++ markerL ++ "正文".toList) =
        some ("目录".toList, markerL ++ "正文".toList) ∧
      parseFullText ("目录".toList ++ markerL ++ "正文".toList) =
        (parseToc "目录".toList, parseBody (markerL ++ "正文".toList))) :=
  ⟨by decide, c2_marker_split "目录".toList "正文".toList (by decide)⟩

/-- Helper: one unfolding step of `searchChapOneAux`. -/
theorem searchChapOneAux_cons (first : Bool) (c : Char) (rest : List Char) :
    searchChapOneAux first (c :: rest) =
      if first && chapOneCore (c :: rest) then some 0
      else if c = '\n' && chapOneCore rest then some 0
      else (searchChapOneAux false rest).map (fun q => q + 1) := by
  simp [searchChapOneAux]

/-- Helper: soundness of the fallback search — a returned offset is a
line-start occurrence of `第\s*一\s*回`. -/
theorem searchAux_sound (l : List Char) :
    ∀ (first : Bool) (q : Nat), searchChapOneAux first l = some q → chapOneHit first l q := by
  induction l with
  | nil => intro first q h; simp [searchChapOneAux] at h
  | cons c rest ih =>
    intro first q h
    rw [searchChapOneAux_cons] at h
    by_cases h1 : (first && chapOneCore (c :: rest)) = true
    · rw [if_pos h1] at h
      obtain rfl : (0 : Nat) = q := Option.some_inj.mp h
      obtain ⟨hf, hc⟩ := Bool.and_eq_true_iff.mp h1
      exact Or.inl ⟨rfl, hf, hc⟩
    · rw [if_neg h1] at h
      by_cases h2 : (decide (c = '\n') && chapOneCore rest) = true
      · rw [if_pos h2] at h
        obtain rfl : (0 : Nat) = q := Option.some_inj.mp h
        obtain ⟨hc, hcore⟩ := Bool.and_eq_true_iff.mp h2
        exact Or.inr ⟨rest, by simp [of_decide_eq_true hc], hcore⟩
      · rw [if_neg h2] at h
        cases hm : searchChapOneAux false rest with
        | none => rw [hm] at h; simp at h
        | some q0 =>
          rw [hm] at h
          simp only [Option.map_some'] at h
          obtain rfl : q0 + 1 = q := Option.some_inj.mp h
          rcases ih false q0 hm with ⟨-, hfalse, -⟩ | ⟨t, hdrop, hcore⟩
          · exact absurd hfalse (by simp)
          · exact Or.inr ⟨t, by simpa [List.drop_succ_cons] using hdrop, hcore⟩

/-- Helper: minimality of the fallback search — no earlier offset is a
line-start occurrence. -/
theorem searchAux_min (l : List Char) :
    ∀ (first : Bool) (q : Nat), searchChapOneAux first l = some q →
      ∀ q' < q, ¬chapOneHit first l q' := by
  induction l with
  | nil => intro first q h; simp [searchChapOneAux] at h
  | cons c rest ih =>
    intro first q h q' hq'
    rw [searchChapOneAux_cons] at h
    by_cases h1 : (first && chapOneCore (c :: rest)) = true
    · rw [if_pos h1] at h
      obtain rfl : (0 : Nat) = q := Option.some_inj.mp h
      exact absurd hq' (by omega)
    · rw [if_neg h1] at h
      by_cases h2 : (decide (c = '\n') && chapOneCore rest) = true
      · rw [if_pos h2] at h
        obtain rfl : (0 : Nat) = q := Option.some_inj.mp h
        exact absurd hq' (by omega)
      · rw [if_neg h2] at h
        cases hm : searchChapOneAux false rest with
        | none => rw [hm] at h; simp at h
        | some q0 =>
          rw [hm] at h
          simp only [Option.map_some'] at h
          obtain rfl : q0 + 1 = q := Option.some_inj.mp h
          cases q' with
          | zero =>
            rintro (⟨-, hfirst, hcore⟩ | ⟨t, hdrop, hcore⟩)
            · exact h1 (by simp [hfirst, hcore])
            · simp only [List.drop_zero] at hdrop
              have hc : c = '\n' := ((List.cons.injEq ..).mp hdrop).1
              have ht : rest = t := ((List.cons.injEq ..).mp hdrop).2
              exact h2 (by simp [hc, ht ▸ hcore])
          | succ q'' =>
            rintro (⟨hq0', -, -⟩ | ⟨t, hdrop, hcore⟩)
            · exact absurd hq0' (by omega)
            · exact ih false q0 hm q'' (by omega)
                (Or.inr ⟨t, by simpa [List.drop_succ_cons] using hdrop, hcore⟩)

/-- C3 amended: when the marker is absent, the fallback locates the
first line-start occurrence of the chapter-one opener `第\s*一\s*回`
(the literal numeral `一` only, not the full numeral class) and the text
from that point onward, occurrence included, becomes the body scanned
for chapters; no earlier line start carries the token. -/
theorem c3_fallback_amended (content : List Char) (q : Nat)
    (hm : splitOnce markerL content = none)
    (hq : searchChapOne content = some q) :
    parseFullText content = (parseToc (content.take q), parseBody (content.drop q)) ∧
    chapOneHit true content q ∧
    (∀ q' < q, ¬chapOneHit true content q') := by
  refine ⟨?_, searchAux_sound content true q hq, searchAux_min content true q hq⟩
  simp [parseFullText, parseSplit, hm, hq]

theorem c3_fallback_amended_witness :
    splitOnce markerL "目录\n第一回 甄士隐\n正文".toList = none ∧
    searchChapOne "目录\n第一回 甄士隐\n正文".toList = some 2 ∧
    (parseFullText "目录\n第一回 甄士隐\n正文".toList =
        (parseToc ("目录\n第一回 甄士隐\n正文".toList.take 2),
          parseBody ("目录\n第一回 甄士隐\n正文".toList.drop 2)) ∧
      chapOneHit true "目录\n第一回 甄士隐\n正文".toList 2 ∧
      (∀ q' < 2, ¬chapOneHit true "目录\n第一回 甄士隐\n正文".toList q')) :=
  ⟨by decide, by decide,
    c3_fallback_amended "目录\n第一回 甄士隐\n正文".toList 2 (by decide) (by decide)⟩

/-- C4 amended: in every no-chapters case the parse emits a diagnostic
and does not raise (the model is a total function), but the result
depends on how the split point was found: (a) marker present and no
chapter-opening match in the body region — the TOC entries plus one
front-matter record (`全文`) holding the whole body region (the marker
onward; the entire input exactly when the marker is at offset 0);
(b) marker absent, chapter-one fallback found, and no chapter-opening
match from there — the TOC entries from the text before that point plus
one front-matter record (`全文`) holding only the text from the fallback
point onward; (c) marker absent and fallback failed — `([], [])` with no
front-matter record at all. -/
theorem c4_nochapters_amended (content : List Char) :
    (∀ pre after, splitOnce markerL content = some (pre, after) →
      findAll (markerL ++ after) = [] →
      parseFullText content =
        (parseToc pre, [BodyItem.intro fullLabel (markerL ++ after)])) ∧
    (∀ q, splitOnce markerL content = none → searchChapOne content = some q →
      findAll (content.drop q) = [] →
      parseFullText content =
        (parseToc (content.take q), [BodyItem.intro fullLabel (content.drop q)])) ∧
    (splitOnce markerL content = none → searchChapOne content = none →
      parseFullText content = ([], [])) := by
  refine ⟨?_, ?_, ?_⟩
  · intro pre after hs hf
    simp [parseFullText, parseSplit, hs, parseBody, hf]
  · intro q hs hq hf
    simp [parseFullText, parseSplit, hs, hq, parseBody, hf]
  · intro hs hq
    simp [parseFullText, parseSplit, hs, hq]

theorem c4_nochapters_amended_witness :
    (splitOnce markerL (markerL ++ "没有章节".toList) = some ([], "没有章节".toList) ∧
      findAll (markerL ++ "没有章节".toList) = [] ∧
      parseFullText (markerL ++ "没有章节".toList) =
        (parseToc [], [BodyItem.intro fullLabel (markerL ++ "没有章节".toList)])) ∧
    (splitOnce markerL "abc\n第一回。正文".toList = none ∧
      searchChapOne "abc\n第一回。正文".toList = some 3 ∧
      findAll ("abc\n第一回。正文".toList.drop 3) = [] ∧
      parseFullText "abc\n第一回。正文".toList =
        (parseToc ("abc\n第一回。正文".toList.take 3),
          [BodyItem.intro fullLabel ("abc\n第一回。正文".toList.drop 3)])) :=
  ⟨⟨by decide, by decide,
    (c4_nochapters_amended (markerL ++ "没有章节".toList)).1 [] "没有章节".toList
      (by decide) (by decide)⟩,
   ⟨by decide, by decide, by decide,
    (c4_nochapters_amended "abc\n第一回。正文".toList).2.1 3
      (by decide) (by decide) (by decide)⟩⟩

/-- C5 amended: when a chunk's header line matches the numeral+title
pattern, the stored numeral token is the raw match with its ASCII spaces
removed: it never contains U+0020 and is never empty, but whitespace
other than ASCII space (tabs, full-width spaces) survives in it. -/
theorem c5_numeral_ws_amended (chunk raw g2 : List Char)
    (h : headerMatch (stripBoth ((splitNl chunk).headD [])) = some (raw, g2)) :
    mkChapter chunk =
      BodyItem.chapter (removeSpaces raw) (stripBoth g2)
        (stripBoth (joinNl (splitNl chunk).tail)) ∧
    ' ' ∉ removeSpaces raw ∧
    removeSpaces raw ≠ [] := by
  refine ⟨by simp only [mkChapter]; rw [h], ?_, ?_⟩
  · intro hmem
    have := (List.mem_filter.mp hmem).2
    simp at this
  · have hraw : ∃ rest, raw = '第' :: rest := by
      unfold headerMatch at h
      rcases hc : chapNumCore (stripBoth ((splitNl chunk).headD [])) with - | ⟨a, b, c, r5⟩ <;>
        rw [hc] at h
      · simp at h
      · simp only [takeWsP] at h
        by_cases hd : r5.takeWhile isPySpace = []
        · rw [if_pos hd] at h; exact absurd h (by simp)
        · rw [if_neg hd] at h
          exact ⟨_, (congrArg Prod.fst (Option.some_inj.mp h)).symm⟩
    obtain ⟨rest, rfl⟩ := hraw
    simp [removeSpaces]

theorem c5_numeral_ws_amended_witness :
    headerMatch (stripBoth ((splitNl "第  一  回 题目".toList).headD [])) =
      some ("第  一  回".toList, "题目".toList) ∧
    (mkChapter "第  一  回 题目".toList =
        BodyItem.chapter (removeSpaces "第  一  回".toList) (stripBoth "题目".toList)
          (stripBoth (joinNl (splitNl "第  一  回 题目".toList).tail)) ∧
      ' ' ∉ removeSpaces "第  一  回".toList ∧
      removeSpaces "第  一  回".toList ≠ []) :=
  ⟨by decide,
    c5_numeral_ws_amended "第  一  回 题目".toList "第  一  回".toList "题目".toList
      (by decide)⟩

/-- Helper: a step of `wrapAux` on a non-opening character. -/
theorem wrapAux_cons_ne (f : Nat) (x : Char) (rest : List Char) (hx : x ≠ '【') :
    wrapAux (f + 1) (x :: rest) = x :: wrapAux f rest := by
  simp [wrapAux, hx]

/-- Helper: a step of `wrapAux` on an opener with no closing glyph in
reach. -/
theorem wrapAux_cons_open_none (f : Nat) (rest : List Char)
    (hs : splitAtClose rest = none) :
    wrapAux (f + 1) ('【' :: rest) = '【' :: wrapAux f rest := by
  simp [wrapAux, hs]

/-- Helper: with enough fuel, text without an opening glyph passes
through the comment-wrapping step unchanged. -/
theorem wrapAux_id_of_noOpen (l : List Char) (hl : '【' ∉ l) :
    ∀ fuel, l.length ≤ fuel → wrapAux fuel l = l := by
  induction l with
  | nil => intro fuel _; cases fuel <;> simp [wrapAux]
  | cons x rest ih =>
    intro fuel hf
    cases fuel with
    | zero => simp at hf
    | succ f =>
      have hx : x ≠ '【' := fun he => hl (he ▸ List.mem_cons_self ..)
      rw [wrapAux_cons_ne f x rest hx,
        ih (fun hm => hl (List.mem_cons_of_mem _ hm)) f (by simpa using hf)]

/-- Helper: the `【.*?】` close-scan fails when the closing glyph sits
behind a newline. -/
theorem splitAtClose_nl (b rest : List Char) (hb : '】' ∉ b) :
    splitAtClose (b ++ '\n' :: rest) = none := by
  induction b with
  | nil => simp [splitAtClose]
  | cons x bs ih =>
    have hx : x ≠ '】' := fun he => hb (he ▸ List.mem_cons_self ..)
    simp only [List.cons_append, List.append_eq, splitAtClose]
    rw [if_neg hx]
    by_cases hn : x = '\n'
    · rw [if_pos hn]
    · rw [if_neg hn, ih (fun hm => hb (List.mem_cons_of_mem _ hm))]

/-- C10 amended: when an opening `【` and the next `】` are separated by
a line break and no other bracket glyph occurs anywhere in the input,
the comment-wrapping step leaves the text unchanged — both glyphs pass
through without any comment marker. -/
theorem c10_multiline_bracket_amended (a b c d : List Char)
    (ha1 : '【' ∉ a) (_ha2 : '】' ∉ a) (hb1 : '【' ∉ b) (hb2 : '】' ∉ b)
    (hc1 : '【' ∉ c) (_hc2 : '】' ∉ c) (hd1 : '【' ∉ d) (_hd2 : '】' ∉ d) :
    wrapComments (a ++ '【' :: (b ++ '\n' :: (c ++ '】' :: d))) =
      a ++ '【' :: (b ++ '\n' :: (c ++ '】' :: d)) := by
  have hT : '【' ∉ b ++ '\n' :: (c ++ '】' :: d) := by
    intro hm
    rcases List.mem_append.mp hm with hm | hm
    · exact hb1 hm
    · rcases List.mem_cons.mp hm with he | hm
      · exact absurd he (by decide)
      · rcases List.mem_append.mp hm with hm | hm
        · exact hc1 hm
        · rcases List.mem_cons.mp hm with he | hm
          · exact absurd he (by decide)
          · exact hd1 hm
  have key : ∀ (a0 : List Char), '【' ∉ a0 →
      ∀ fuel, (a0 ++ '【' :: (b ++ '\n' :: (c ++ '】' :: d))).length ≤ fuel →
        wrapAux fuel (a0 ++ '【' :: (b ++ '\n' :: (c ++ '】' :: d))) =
          a0 ++ '【' :: (b ++ '\n' :: (c ++ '】' :: d)) := by
    intro a0 ha0
    induction a0 with
    | nil =>
      intro fuel hf
      cases fuel with
      | zero => simp at hf
      | succ f =>
        rw [List.nil_append] at hf ⊢
        rw [wrapAux_cons_open_none f _ (splitAtClose_nl b _ hb2),
          wrapAux_id_of_noOpen _ hT f (by simpa using hf)]
    | cons x a' ih =>
      intro fuel hf
      cases fuel with
      | zero => simp at hf
      | succ f =>
        have hx : x ≠ '【' := fun he => ha0 (he ▸ List.mem_cons_self ..)
        rw [List.cons_append] at hf ⊢
        rw [wrapAux_cons_ne f x _ hx,
          ih (fun hm => ha0 (List.mem_cons_of_mem _ hm)) f (by simpa using hf)]
  exact key a ha1 _ (by simp)

theorem c10_multiline_bracket_amended_witness :
    ('【' ∉ "x".toList ∧ '】' ∉ "x".toList ∧ '【' ∉ "y".toList ∧ '】' ∉ "y".toList ∧
      '【' ∉ "z".toList ∧ '】' ∉ "z".toList ∧ '【' ∉ "w".toList ∧ '】' ∉ "w".toList) ∧
    wrapComments ("x".toList ++ '【' :: ("y".toList ++ '\n' :: ("z".toList ++ '】' :: "w".toList))) =
      "x".toList ++ '【' :: ("y".toList ++ '\n' :: ("z".toList ++ '】' :: "w".toList)) :=
  ⟨⟨by decide, by decide, by decide, by decide, by decide, by decide, by decide, by decide⟩,
    c10_multiline_bracket_amended "x".toList "y".toList "z".toList "w".toList
      (by decide) (by decide) (by decide) (by decide)
      (by decide) (by decide) (by decide) (by decide)⟩

/-- Helper: `splitNlA` past a newline-free prefix. -/
theorem splitNlA_append_noNl (a s : List Char) (ha : '\n' ∉ a) :
    splitNlA (a ++ s) = (a ++ (splitNlA s).1, (splitNlA s).2) := by
  induction a with
  | nil => simp
  | cons x a' ih =>
    have hx : x ≠ '\n' := fun he => ha (he ▸ List.mem_cons_self ..)
    simp [splitNlA, hx, ih (fun hm => ha (List.mem_cons_of_mem _ hm))]

theorem chReplace_nil (c : Char) (r : List Char) : chReplace c r [] = [] := rfl

theorem chReplace_cons (c : Char) (r : List Char) (x : Char) (t : List Char) :
    chReplace c r (x :: t) = (if x = c then r else [x]) ++ chReplace c r t := by
  simp [chReplace]

/-- Helper: a single-character replacement whose replacement text has no
newline maps each line to its replaced image. -/
theorem splitNlA_chReplace (c : Char) (r : List Char) (hc : c ≠ '\n') (hr : '\n' ∉ r)
    (t : List Char) :
    splitNlA (chReplace c r t) =
      (chReplace c r (splitNlA t).1, (splitNlA t).2.map (chReplace c r)) := by
  induction t with
  | nil => simp [chReplace, splitNlA]
  | cons x t' ih =>
    by_cases hx : x = '\n'
    · subst hx
      rw [chReplace_cons, if_neg (fun he => hc he.symm), List.singleton_append]
      simp [splitNlA, ih, chReplace_nil]
    · have hrep : '\n' ∉ (if x = c then r else [x]) := by
        split
        · exact hr
        · simp [Ne.symm hx]
      rw [chReplace_cons, splitNlA_append_noNl _ _ hrep, ih]
      simp [splitNlA, hx, chReplace_cons]

theorem splitNl_chReplace (c : Char) (r : List Char) (hc : c ≠ '\n') (hr : '\n' ∉ r)
    (t : List Char) :
    splitNl (chReplace c r t) = (splitNl t).map (chReplace c r) := by
  unfold splitNl
  rw [splitNlA_chReplace c r hc hr]
  simp

/-- Helper: escaping maps each line to its escaped image. -/
theorem splitNl_escapeHtml (t : List Char) :
    splitNl (escapeHtml t) = (splitNl t).map escapeHtml := by
  unfold escapeHtml
  rw [splitNl_chReplace _ _ (by decide) (by decide),
    splitNl_chReplace _ _ (by decide) (by decide),
    splitNl_chReplace _ _ (by decide) (by decide), List.map_map, List.map_map]
  rfl

/-- Helper: structure of a successful close-scan: the text decomposes at
the first closing glyph, with no closing glyph or newline before it. -/
theorem splitAtClose_some (l : List Char) :
    ∀ a b, splitAtClose l = some (a, b) →
      l = a ++ '】' :: b ∧ '】' ∉ a ∧ '\n' ∉ a := by
  induction l with
  | nil => intro a b h; simp [splitAtClose] at h
  | cons x rest ih =>
    intro a b h
    simp only [splitAtClose] at h
    by_cases hx : x = '】'
    · rw [if_pos hx] at h
      obtain ⟨ha, hb⟩ := Prod.mk.injEq .. |>.mp (Option.some_inj.mp h)
      subst hx
      rw [← ha, ← hb]
      simp
    · rw [if_neg hx] at h
      by_cases hn : x = '\n'
      · rw [if_pos hn] at h; exact absurd h (by simp)
      · rw [if_neg hn] at h
        cases hs : splitAtClose rest with
        | none => rw [hs] at h; exact absurd h (by simp)
        | some p =>
          obtain ⟨a', b'⟩ := p
          rw [hs] at h
          obtain ⟨ha, hb⟩ := Prod.mk.injEq .. |>.mp (Option.some_inj.mp h)
          obtain ⟨h1, h2, h3⟩ := ih a' b' hs
          subst hb
          rw [← ha]
          refine ⟨by rw [h1]; simp, ?_, ?_⟩
          · intro hm
            rcases List.mem_cons.mp hm with he | hm'
            · exact hx he.symm
            · exact h2 hm'
          · intro hm
            rcases List.mem_cons.mp hm with he | hm'
            · exact hn he.symm
            · exact h3 hm'

/-- Helper: the close-scan finds the closing glyph appended after clean
text. -/
theorem splitAtClose_append_close (inner x : List Char)
    (h1 : '】' ∉ inner) (h2 : '\n' ∉ inner) :
    splitAtClose (inner ++ '】' :: x) = some (inner, x) := by
  induction inner with
  | nil => simp [splitAtClose]
  | cons y ys ih =>
    have hy1 : y ≠ '】' := fun he => h1 (he ▸ List.mem_cons_self ..)
    have hy2 : y ≠ '\n' := fun he => h2 (he ▸ List.mem_cons_self ..)
    simp only [List.cons_append, List.append_eq, splitAtClose]
    rw [if_neg hy1, if_neg hy2,
      ih (fun hm => h1 (List.mem_cons_of_mem _ hm)) (fun hm => h2 (List.mem_cons_of_mem _ hm))]

/-- Helper: the wrapping scan is fuel-irrelevant once the fuel covers
the text length. -/
theorem wrapAux_fuel (f1 : Nat) :
    ∀ (l : List Char) (f2 : Nat), l.length ≤ f1 → l.length ≤ f2 →
      wrapAux f1 l = wrapAux f2 l := by
  induction f1 with
  | zero =>
    intro l f2 h1 _
    obtain rfl : l = [] := List.eq_nil_of_length_eq_zero (Nat.le_zero.mp h1)
    cases f2 <;> simp [wrapAux]
  | succ f ih =>
    intro l f2 h1 h2
    cases l with
    | nil => cases f2 <;> simp [wrapAux]
    | cons x rest =>
      cases f2 with
      | zero => simp at h2
      | succ f2' =>
        by_cases hx : x = '【'
        · subst hx
          cases hs : splitAtClose rest with
          | none =>
            rw [wrapAux_cons_open_none f rest hs, wrapAux_cons_open_none f2' rest hs,
              ih rest f2' (by simpa using h1) (by simpa using h2)]
          | some p =>
            obtain ⟨inner, after⟩ := p
            obtain ⟨he, -, -⟩ := splitAtClose_some rest inner after hs
            have hlen : after.length ≤ rest.length := by
              rw [he]; simp
              omega
            rw [show wrapAux (f + 1) ('【' :: rest) =
                spanOpen ++ '【' :: (inner ++ '】' :: (spanClose ++ wrapAux f after)) from by
                  simp [wrapAux, hs],
              show wrapAux (f2' + 1) ('【' :: rest) =
                spanOpen ++ '【' :: (inner ++ '】' :: (spanClose ++ wrapAux f2' after)) from by
                  simp [wrapAux, hs],
              ih after f2' (by simp at h1; omega) (by simp at h2; omega)]
        · rw [wrapAux_cons_ne f x rest hx, wrapAux_cons_ne f2' x rest hx,
            ih rest f2' (by simpa using h1) (by simpa using h2)]

/-- Helper: `wrapComments` on a non-opening head character. -/
theorem wrapComments_cons_ne (x : Char) (l : List Char) (hx : x ≠ '【') :
    wrapComments (x :: l) = x :: wrapComments l := by
  unfold wrapComments
  rw [show (x :: l).length + 1 = l.length + 1 + 1 from by simp, wrapAux_cons_ne _ x l hx]

/-- Helper: `wrapComments` on an opener with no closing glyph in reach. -/
theorem wrapComments_cons_open_none (l : List Char) (hs : splitAtClose l = none) :
    wrapComments ('【' :: l) = '【' :: wrapComments l := by
  unfold wrapComments
  rw [show ('【' :: l).length + 1 = l.length + 1 + 1 from by simp,
    wrapAux_cons_open_none _ l hs]

/-- Helper: `wrapComments` on an opener whose close-scan succeeds. -/
theorem wrapComments_cons_open_some (l inner after : List Char)
    (hs : splitAtClose l = some (inner, after)) :
    wrapComments ('【' :: l) =
      spanOpen ++ '【' :: (inner ++ '】' :: (spanClose ++ wrapComments after)) := by
  obtain ⟨he, -, -⟩ := splitAtClose_some l inner after hs
  have hlen : after.length ≤ l.length := by
    rw [he]; simp; omega
  unfold wrapComments
  rw [show ('【' :: l).length + 1 = l.length + 1 + 1 from by simp]
  rw [show wrapAux (l.length + 1 + 1) ('【' :: l) =
      spanOpen ++ '【' :: (inner ++ '】' :: (spanClose ++ wrapAux (l.length + 1) after)) from by
        simp [wrapAux, hs]]
  rw [wrapAux_fuel (l.length + 1) after (after.length + 1) (by omega) (by omega)]

/-- Helper: the first line never contains a newline. -/
theorem noNl_splitNlA_fst (l : List Char) : '\n' ∉ (splitNlA l).1 := by
  induction l with
  | nil => simp [splitNlA]
  | cons x rest ih =>
    by_cases hx : x = '\n'
    · simp [splitNlA, hx]
    · simp only [splitNlA, if_neg hx]
      intro hm
      rcases List.mem_cons.mp hm with he | hm'
      · exact hx he.symm
      · exact ih hm'

/-- Helper: the close-scan fails on text with no closing glyph and no
newline. -/
theorem splitAtClose_none_of (m : List Char) (h1 : '】' ∉ m) (h2 : '\n' ∉ m) :
    splitAtClose m = none := by
  induction m with
  | nil => simp [splitAtClose]
  | cons x rest ih =>
    have hx1 : x ≠ '】' := fun he => h1 (he ▸ List.mem_cons_self ..)
    have hx2 : x ≠ '\n' := fun he => h2 (he ▸ List.mem_cons_self ..)
    simp only [splitAtClose]
    rw [if_neg hx1, if_neg hx2,
      ih (fun hm => h1 (List.mem_cons_of_mem _ hm)) (fun hm => h2 (List.mem_cons_of_mem _ hm))]

/-- Helper: when the close-scan fails, the first line has no closing
glyph. -/
theorem splitAtClose_none_fst (l : List Char) (hs : splitAtClose l = none) :
    '】' ∉ (splitNlA l).1 := by
  induction l with
  | nil => simp [splitNlA]
  | cons x rest ih =>
    simp only [splitAtClose] at hs
    by_cases hx1 : x = '】'
    · rw [if_pos hx1] at hs; exact absurd hs (by simp)
    · rw [if_neg hx1] at hs
      by_cases hx2 : x = '\n'
      · simp [splitNlA, hx2]
      · rw [if_neg hx2] at hs
        have hrest : splitAtClose rest = none := by
          cases hr : splitAtClose rest with
          | none => rfl
          | some p => rw [hr] at hs; obtain ⟨a, b⟩ := p; exact absurd hs (by simp)
        simp only [splitNlA, if_neg hx2]
        intro hm
        rcases List.mem_cons.mp hm with he | hm'
        · exact hx1 he.symm
        · exact ih hrest hm'

/-- Helper: the comment-wrapping step maps each line to its wrapped
image — `【.*?】` never crosses a line break. -/
theorem splitNlA_wrapAux (fuel : Nat) :
    ∀ (t : List Char), t.length ≤ fuel →
      splitNlA (wrapAux fuel t) =
        (wrapComments (splitNlA t).1, (splitNlA t).2.map wrapComments) := by
  induction fuel with
  | zero =>
    intro t ht
    obtain rfl : t = [] := List.eq_nil_of_length_eq_zero (Nat.le_zero.mp ht)
    simp [wrapAux, splitNlA, wrapComments]
  | succ f ih =>
    intro t ht
    cases t with
    | nil => simp [wrapAux, splitNlA, wrapComments]
    | cons x rest =>
      by_cases hx : x = '【'
      · subst hx
        cases hs : splitAtClose rest with
        | none =>
          rw [wrapAux_cons_open_none f rest hs]
          have hf1 : splitAtClose (splitNlA rest).1 = none :=
            splitAtClose_none_of _ (splitAtClose_none_fst rest hs) (noNl_splitNlA_fst rest)
          rw [show splitNlA ('【' :: wrapAux f rest) =
              ('【' :: (splitNlA (wrapAux f rest)).1, (splitNlA (wrapAux f rest)).2) from by
                simp [splitNlA]]
          rw [ih rest (by simpa using ht)]
          rw [show splitNlA ('【' :: rest) =
              ('【' :: (splitNlA rest).1, (splitNlA rest).2) from by simp [splitNlA]]
          rw [wrapComments_cons_open_none _ hf1]
        | some p =>
          obtain ⟨inner, after⟩ := p
          obtain ⟨he, hni, hnn⟩ := splitAtClose_some rest inner after hs
          have hlen : after.length ≤ f := by
            have : rest.length ≤ f := by simpa using ht
            rw [he] at this; simp at this; omega
          rw [show wrapAux (f + 1) ('【' :: rest) =
              (spanOpen ++ '【' :: (inner ++ ['】'] ++ spanClose)) ++ wrapAux f after from by
                simp [wrapAux, hs]]
          have hpre : '\n' ∉ spanOpen ++ '【' :: (inner ++ ['】'] ++ spanClose) := by
            intro hm
            rcases List.mem_append.mp hm with hm | hm
            · revert hm; decide
            · rcases List.mem_cons.mp hm with he' | hm
              · exact absurd he' (by decide)
              · rcases List.mem_append.mp hm with hm | hm
                · rcases List.mem_append.mp hm with hm | hm
                  · exact hnn hm
                  · revert hm; decide
                · revert hm; decide
          rw [splitNlA_append_noNl _ _ hpre, ih after hlen]
          rw [show splitNlA ('【' :: rest) =
              ('【' :: (splitNlA rest).1, (splitNlA rest).2) from by simp [splitNlA]]
          rw [he, splitNlA_append_noNl inner ('】' :: after) hnn]
          rw [show splitNlA ('】' :: after) =
              ('】' :: (splitNlA after).1, (splitNlA after).2) from by simp [splitNlA]]
          have hcl : splitAtClose (inner ++ '】' :: (splitNlA after).1) =
              some (inner, (splitNlA after).1) := splitAtClose_append_close _ _ hni hnn
          rw [wrapComments_cons_open_some _ _ _ hcl]
          simp
      · rw [wrapAux_cons_ne f x rest hx]
        by_cases hn : x = '\n'
        · subst hn
          rw [show splitNlA ('\n' :: wrapAux f rest) =
              ([], (splitNlA (wrapAux f rest)).1 :: (splitNlA (wrapAux f rest)).2) from by
                simp [splitNlA]]
          rw [ih rest (by simpa using ht)]
          rw [show splitNlA ('\n' :: rest) =
              ([], (splitNlA rest).1 :: (splitNlA rest).2) from by simp [splitNlA]]
          rw [show wrapComments [] = [] from rfl]
          simp
        · rw [show splitNlA (x :: wrapAux f rest) =
              (x :: (splitNlA (wrapAux f rest)).1, (splitNlA (wrapAux f rest)).2) from by
                simp [splitNlA, hn]]
          rw [ih rest (by simpa using ht)]
          rw [show splitNlA (x :: rest) =
              (x :: (splitNlA rest).1, (splitNlA rest).2) from by simp [splitNlA, hn]]
          rw [wrapComments_cons_ne x _ hx]

/-- Helper: wrapping maps each line to its wrapped image. -/
theorem splitNl_wrapComments (t : List Char) :
    splitNl (wrapComments t) = (splitNl t).map wrapComments := by
  unfold splitNl wrapComments
  rw [splitNlA_wrapAux (t.length + 1) t (by omega)]
  simp [wrapComments]

/-- Helper: a line strips to empty exactly when it is whitespace-only. -/
theorem stripBoth_eq_nil_iff (l : List Char) : stripBoth l = [] ↔ allWs l := by
  unfold stripBoth allWs
  rw [List.reverse_eq_nil_iff, List.dropWhile_eq_nil_iff]
  constructor
  · intro h c hc
    rw [← List.takeWhile_append_dropWhile (p := isPySpace) (l := l)] at hc
    rcases List.mem_append.mp hc with hc | hc
    · exact List.mem_takeWhile_imp hc
    · exact h c (List.mem_reverse.mpr hc)
  · intro h c hc
    exact h c ((List.dropWhile_sublist _).subset (List.mem_reverse.mp hc))

/-- Helper: a single-character replacement with non-whitespace pattern
and replacement preserves whitespace-only-ness. -/
theorem allWs_chReplace (c : Char) (r : List Char) (hcw : isPySpace c = false)
    (hr : r ≠ []) (hrw : ∀ d ∈ r, isPySpace d = false) (l : List Char) :
    allWs (chReplace c r l) ↔ allWs l := by
  unfold allWs chReplace
  constructor
  · intro h x hx
    by_cases hxc : x = c
    · exfalso
      obtain ⟨d, hd⟩ := List.exists_mem_of_ne_nil r hr
      have hdw := h d (List.mem_flatMap.mpr ⟨x, hx, by simp [hxc, hd]⟩)
      rw [hrw d hd] at hdw
      exact Bool.false_ne_true hdw
    · exact h x (List.mem_flatMap.mpr ⟨x, hx, by simp [hxc]⟩)
  · intro h e he
    obtain ⟨x, hx, hin⟩ := List.mem_flatMap.mp he
    by_cases hxc : x = c
    · exfalso
      have := h x hx
      rw [hxc, hcw] at this
      exact Bool.false_ne_true this
    · rw [if_neg hxc] at hin
      obtain rfl : e = x := by simpa using hin
      exact h _ hx

/-- Helper: escaping preserves whitespace-only-ness. -/
theorem allWs_escapeHtml (l : List Char) : allWs (escapeHtml l) ↔ allWs l := by
  unfold escapeHtml
  rw [allWs_chReplace _ _ (by decide) (by decide) (by decide),
    allWs_chReplace _ _ (by decide) (by decide) (by decide),
    allWs_chReplace _ _ (by decide) (by decide) (by decide)]

/-- Helper: the comment-wrapping step preserves whitespace-only-ness. -/
theorem allWs_wrapAux (fuel : Nat) :
    ∀ (l : List Char), l.length ≤ fuel → (allWs (wrapAux fuel l) ↔ allWs l) := by
  induction fuel with
  | zero =>
    intro l hl
    obtain rfl : l = [] := List.eq_nil_of_length_eq_zero (Nat.le_zero.mp hl)
    simp [wrapAux]
  | succ f ih =>
    intro l hl
    cases l with
    | nil => simp [wrapAux]
    | cons x rest =>
      by_cases hx : x = '【'
      · subst hx
        have hws : isPySpace '【' = false := by decide
        cases hs : splitAtClose rest with
        | none =>
          rw [wrapAux_cons_open_none f rest hs]
          constructor
          · intro h
            exfalso
            have := h '【' (List.mem_cons_self ..)
            rw [hws] at this
            exact Bool.false_ne_true this
          · intro h
            exfalso
            have := h '【' (List.mem_cons_self ..)
            rw [hws] at this
            exact Bool.false_ne_true this
        | some p =>
          obtain ⟨inner, after⟩ := p
          rw [show wrapAux (f + 1) ('【' :: rest) =
              spanOpen ++ '【' :: (inner ++ '】' :: (spanClose ++ wrapAux f after)) from by
                simp [wrapAux, hs]]
          constructor
          · intro h
            exfalso
            have := h '<' (List.mem_append_left _ (by decide))
            rw [show isPySpace '<' = false from by decide] at this
            exact Bool.false_ne_true this
          · intro h
            exfalso
            have := h '【' (List.mem_cons_self ..)
            rw [hws] at this
            exact Bool.false_ne_true this
      · rw [wrapAux_cons_ne f x rest hx]
        unfold allWs
        rw [List.forall_mem_cons, List.forall_mem_cons,
          show (∀ c ∈ wrapAux f rest, isPySpace c = true) ↔ allWs (wrapAux f rest) from
            Iff.rfl,
          ih rest (by simpa using hl)]
        exact Iff.rfl

theorem allWs_wrapComments (l : List Char) : allWs (wrapComments l) ↔ allWs l :=
  allWs_wrapAux (l.length + 1) l (by omega)

/-- Helper: the classifier's per-line emptiness test agrees before and
after the escape/wrap transformation. -/
theorem stripNil_transform (l : List Char) :
    stripBoth (wrapComments (escapeHtml l)) = [] ↔ stripBoth l = [] := by
  rw [stripBoth_eq_nil_iff, stripBoth_eq_nil_iff, allWs_wrapComments, allWs_escapeHtml]

/-- Helper: a `filterMap` that agrees with a filter-then-map. -/
theorem filterMap_eq_filter_map {α β : Type} (f : α → Option β) (p : α → Bool) (g : α → β)
    (l : List α) (hf : ∀ x ∈ l, f x = if p x then some (g x) else none) :
    l.filterMap f = (l.filter p).map g := by
  induction l with
  | nil => simp
  | cons x t ih =>
    rw [List.filterMap_cons, List.filter_cons, hf x (List.mem_cons_self ..)]
    by_cases hp : p x = true
    · rw [if_pos hp, if_pos hp]
      simp [ih (fun y hy => hf y (List.mem_cons_of_mem _ hy))]
    · rw [if_neg hp, if_neg hp]
      simp [ih (fun y hy => hf y (List.mem_cons_of_mem _ hy))]

/-- C7: the classifier emits no line for a whitespace-only source line,
exactly one line (in order) for each other source line — namely its
escaped, wrapped, stripped image with its classification — and hence at
most as many lines as the input has. -/
theorem c7_classify_lines (text : List Char) :
    processText text =
      ((splitNl text).filter (fun l => !(stripBoth l).isEmpty)).map
        (fun l => (classifyLine (stripBoth (wrapComments (escapeHtml l))),
          stripBoth (wrapComments (escapeHtml l)))) ∧
    (processText text).length =
      ((splitNl text).filter (fun l => !(stripBoth l).isEmpty)).length ∧
    (processText text).length ≤ (splitNl text).length := by
  have hmain : processText text =
      ((splitNl text).filter (fun l => !(stripBoth l).isEmpty)).map
        (fun l => (classifyLine (stripBoth (wrapComments (escapeHtml l))),
          stripBoth (wrapComments (escapeHtml l)))) := by
    simp only [processText]
    rw [splitNl_wrapComments, splitNl_escapeHtml, List.map_map, List.filterMap_map]
    apply filterMap_eq_filter_map
    intro x _
    by_cases hsx : stripBoth x = []
    · have hsx' : stripBoth (wrapComments (escapeHtml x)) = [] :=
        (stripNil_transform x).mpr hsx
      simp only [Function.comp]
      rw [if_pos hsx']
      rw [if_neg (by simp [hsx])]
    · have hsx' : stripBoth (wrapComments (escapeHtml x)) ≠ [] :=
        fun he => hsx ((stripNil_transform x).mp he)
      simp only [Function.comp]
      rw [if_neg hsx']
      rw [if_pos (by simp [List.isEmpty_iff, hsx])]
  refine ⟨hmain, ?_, ?_⟩
  · rw [hmain, List.length_map]
  · rw [hmain, List.length_map]
    exact List.length_filter_le _ _

end Hlm
